import Mathlib

/-!
Verification of the local question-answering engine of `src/app.py`
(pickle-mini).  The Python functions `_tokens`, `_wants_multi`,
`_score_overlap`, `_to_second_person`, `personality_response` and
`answer_question_from_memories` are shallowly embedded below; strings are
modelled through their character lists, Python's `str.lower` by
`Char.toLower` (faithful on ASCII, the alphabet the tokenizer and the
rewrite patterns operate on), and the one call to `random.choice` by an
explicit `pick : Nat` parameter indexing the template list, as the spec
requires the randomness source to be injectable.
-/

namespace PickleMini

/-! ### Memory records

A memory record is a Python dict; the engine reads the keys
`memory_text`, `text` (both optional strings) and `importance`
(optional integer, `int(...)` applied when present). -/

structure Memory where
  memory_text : Option String
  text : Option String
  importance : Option Int
deriving DecidableEq

/-- Embedding of `m.get("memory_text", "") or m.get("text", "")`:
an absent or empty `memory_text` falls through to `text` (or `""`). -/
def effText (m : Memory) : String :=
  match m.memory_text with
  | some t => if t = "" then m.text.getD "" else t
  | none => m.text.getD ""

/-- Embedding of `int(m.get("importance", 3))`. -/
def impOf (m : Memory) : Int := m.importance.getD 3

/-! ### Tokenizer (`_tokens`) -/

/-- The `STOPWORDS` set of `src/app.py`. -/
def STOPWORDS : List String :=
  ["a","an","the","is","are","to","of","and","on","at","by","for","in","with",
   "this","that","today","tonight","sunday","monday","tuesday","wednesday",
   "thursday","friday","saturday","my","me"]

/-- Character class of the token regex `[a-z0-9']` (applied to lowered text). -/
def isTokChar (c : Char) : Bool :=
  ('a' ≤ c && c ≤ 'z') || ('0' ≤ c && c ≤ '9') || c == '\''

/-- Maximal runs of token characters, i.e. `re.findall(r"[a-z0-9']+", s)`.
`cur` accumulates the current run in reverse. -/
def runsAux : List Char → List Char → List (List Char)
  | cur, [] => if cur.isEmpty then [] else [cur.reverse]
  | cur, c :: cs =>
    if isTokChar c then runsAux (c :: cur) cs
    else if cur.isEmpty then runsAux [] cs
    else cur.reverse :: runsAux [] cs

/-- Embedding of `_tokens`: lowercase, split into `[a-z0-9']+` runs,
drop stopwords. -/
def tokens (text : String) : List String :=
  ((runsAux [] (text.data.map Char.toLower)).map (fun l => String.mk l)).filter
    (fun w => !(STOPWORDS.contains w))

/-- `set(_tokens(question))`. -/
def qTokensF (q : String) : Finset String := (tokens q).toFinset

/-- Embedding of `_score_overlap`: `len(q_tokens & set(_tokens(text)))`. -/
def scoreOverlap (qT : Finset String) (text : String) : Nat :=
  (qT ∩ (tokens text).toFinset).card

/-- Token overlap of a memory with a question. -/
def overlapQM (q : String) (m : Memory) : Nat :=
  scoreOverlap (qTokensF q) (effText m)

/-- The score `overlap * 10 + importance` assigned to a ranked memory. -/
def scoreM (q : String) (m : Memory) : Int :=
  (overlapQM q m : Int) * 10 + impOf m

/-! ### Multi-item classifier (`_wants_multi`) -/

/-- The `MULTI_Q_HINTS` tuple of `src/app.py`, in source order. -/
def MULTI_Q_HINTS : List String :=
  ["today", "tonight", "this evening", "this afternoon", "this morning",
   "to do", "todo", "tasks", "things", "everything", "all the things",
   "what are all", "what do i have", "what should i do"]

/-- Literal prefix test on character lists. -/
def hasPre : List Char → List Char → Bool
  | [], _ => true
  | _ :: _, [] => false
  | p :: ps, c :: cs => p == c && hasPre ps cs

/-- Python's substring containment `need in hay` on character lists. -/
def hasSub (need : List Char) : List Char → Bool
  | [] => need.isEmpty
  | c :: cs => hasPre need (c :: cs) || hasSub need cs

/-- `str.lower`, character by character (ASCII-faithful). -/
def lowerStr (s : String) : String := String.mk (s.data.map Char.toLower)

/-- Embedding of `_wants_multi`: any hint phrase occurs as a contiguous
substring of the lowercased question. -/
def wantsMulti (question : String) : Bool :=
  MULTI_Q_HINTS.any (fun h => hasSub h.data (lowerStr question).data)

/-! ### Person rewrite (`_to_second_person`)

The Python function runs twelve `re.sub` passes with `IGNORECASE` over
`" " + text + " "`, each pattern a literal word or contraction between
`\b` word boundaries, then strips whitespace and trailing periods. -/

/-- Word characters for `\b` (`[a-zA-Z0-9_]`, ASCII). -/
def wordChar (c : Char) : Bool := c.isAlphanum || c == '_'

/-- Left word boundary before a pattern that starts with a word
character: start of string or a non-word character. -/
def bOK : Option Char → Bool
  | none => true
  | some c => !(wordChar c)

/-- Right word boundary after a pattern that ends with a word character:
end of string or a non-word character next. -/
def bEnd : List Char → Bool
  | [] => true
  | c :: _ => !(wordChar c)

/-- Case-insensitive literal prefix match; returns the remaining suffix. -/
def ciPre : List Char → List Char → Option (List Char)
  | [], s => some s
  | _ :: _, [] => none
  | p :: ps, c :: cs => if p.toLower == c.toLower then ciPre ps cs else none

/-- Match of the whole-word pattern `pat` at the head of `s`, given the
character `prev` just before `s` (boundary on both sides, as all the
source patterns begin and end with word characters). -/
def matchWB (pat : List Char) (prev : Option Char) (s : List Char) :
    Option (List Char) :=
  if bOK prev then
    match ciPre pat s with
    | some rest => if bEnd rest then some rest else none
    | none => none
  else none

/-- One `re.sub` pass, fuel-indexed so it is structurally recursive
(one fuel unit per examined position; a match consumes at least one
character, so `fuel = s.length` suffices).  After a match scanning
resumes past the matched text; the boundary state is carried as the
pattern's last character, which has the same word-character status as
the last matched character (matching is case-insensitive and both sides
lower to the same letter). -/
def subF (pat rep : List Char) : Nat → Option Char → List Char → List Char
  | 0, _, s => s
  | _ + 1, _, [] => []
  | f + 1, prev, c :: cs =>
    match matchWB pat prev (c :: cs) with
    | some rest => rep ++ subF pat rep f (some (pat.getLastD 'x')) rest
    | none => c :: subF pat rep f (some c) cs

/-- One full substitution pass over a string's characters. -/
def subTop (pat rep s : List Char) : List Char := subF pat rep s.length none s

/-- The ordered replacement list of `_to_second_person` (source order;
three patterns carry the curly apostrophe of the source). -/
def replPairs : List (String × String) :=
  [("I am", "You are"), ("I'm", "You're"), ("I’ve", "You’ve"),
   ("I’d", "You’d"), ("I’ll", "You’ll"), ("I", "You"),
   ("my", "your"), ("me", "you"), ("our", "your"),
   ("ours", "yours"), ("we", "you"), ("us", "you")]

/-- Python `str.isspace` characters (ASCII). -/
def isPySpace (c : Char) : Bool :=
  c == ' ' || c == '\t' || c == '\n' || c == '\r' ||
  c.val == 11 || c.val == 12

/-- `str.strip()`: drop whitespace from both ends. -/
def stripWS (l : List Char) : List Char :=
  ((l.dropWhile isPySpace).reverse.dropWhile isPySpace).reverse

/-- `.rstrip(".")`: drop trailing period characters. -/
def rstripDots (l : List Char) : List Char :=
  (l.reverse.dropWhile (fun c => c == '.')).reverse

/-- The final tidying step of `_to_second_person`:
`.strip().rstrip(".")`. -/
def tidy (s : String) : String := String.mk (rstripDots (stripWS s.data))

/-- Embedding of `_to_second_person`. -/
def toSecondPerson (text : String) : String :=
  if text = "" then ""
  else
    String.mk (rstripDots (stripWS
      (replPairs.foldl (fun s pr => subTop pr.1.data pr.2.data s)
        (' ' :: text.data ++ [' ']))))

/-! ### Personality response (`personality_response`) -/

/-- The seven f-string templates, with `memory_text` spliced in. -/
def templates (mt : String) : List String :=
  ["Here's what you've got: " ++ mt ++ ". Go get it done! 💪",
   "Don't forget — " ++ mt ++ ". You're going to rock it! 🌟",
   "You've got this coming up: " ++ mt ++ ". Stay sharp! ⚡",
   "Hey, just a heads up — " ++ mt ++ ". Make it count! ✨",
   "Mark your calendar: " ++ mt ++ ". And don't be late! ⏰",
   "Get ready! " ++ mt ++ ". You're unstoppable. 🚀",
   "Friendly reminder: " ++ mt ++ ". You’ll handle it like a pro. 😎"]

/-- `random.choice(templates)`, determinized by the injected `pick`. -/
def pickTemplate (pick : Nat) (mt : String) : String :=
  (templates mt).getD (pick % (templates mt).length) ""

/-- The keyword suffix appended after the template, decided on the
lowercased `memory_text` (priority birthday, interview, football/game). -/
def domainSuffix (lt : String) : String :=
  if hasSub "birthday".data lt.data then " 🎂 Don't forget to wish them from me too!"
  else if hasSub "interview".data lt.data then " 🤝 Go crush it, you've got this!"
  else if hasSub "football".data lt.data || hasSub "game".data lt.data then
    " ⚽ Bring your A-game and have fun!"
  else ""

/-- Embedding of `personality_response` (the `question` argument is
unused by the source as well). -/
def personalityResponse (pick : Nat) (memoryText _question : String) : String :=
  pickTemplate pick memoryText ++ domainSuffix (lowerStr memoryText)

/-! ### Ranking and the engine (`answer_question_from_memories`) -/

/-- The `ranked` list built by the scoring loop, in input order:
memories with empty effective text are skipped, memories with zero
overlap are dropped, the rest contribute `(overlap * 10 + importance,
text)`. -/
def rankedFor (q : String) (ms : List Memory) : List (Int × String) :=
  ms.filterMap (fun m =>
    if effText m = "" then none
    else if 0 < scoreOverlap (qTokensF q) (effText m) then
      some ((scoreOverlap (qTokensF q) (effText m) : Int) * 10 + impOf m,
        effText m)
    else none)

/-- Stable descending insertion: `x` (arriving earlier in the input than
everything already placed) goes in front of the first element whose
score it ties or beats. -/
def insDesc (x : Int × String) : List (Int × String) → List (Int × String)
  | [] => [x]
  | y :: ys => if y.1 ≤ x.1 then x :: y :: ys else y :: insDesc x ys

/-- Stable descending sort by score: the unique stable sort, hence a
faithful model of `ranked.sort(key=lambda t: t[0], reverse=True)`
(CPython's sort is stable and `reverse=True` keeps it so). -/
def sortDesc : List (Int × String) → List (Int × String)
  | [] => []
  | a :: l => insDesc a (sortDesc l)

/-- The engine's final ranked list. -/
def rankedList (q : String) (ms : List Memory) : List (Int × String) :=
  sortDesc (rankedFor q ms)

/-- Embedding of `answer_question_from_memories`, with the
`random.choice` inside `personality_response` pinned by `pick`. -/
def answerQuestionFromMemories (pick : Nat) (question : String)
    (memories : List Memory) : String :=
  if memories = [] then "I don't know."
  else if qTokensF question = ∅ then "I don't know."
  else if rankedFor question memories = [] then "I don't know."
  else if wantsMulti question then
    if ((sortDesc (rankedFor question memories)).take 5).map (fun t => t.2)
        = [] then "I don't know."
    else
      personalityResponse pick
        (String.intercalate "\n"
          ((((sortDesc (rankedFor question memories)).take 5).map
            (fun t => t.2)).map (fun txt => "• " ++ toSecondPerson txt)))
        question
  else
    personalityResponse pick
      (toSecondPerson
        (((sortDesc (rankedFor question memories)).headD (0, "")).2))
      question

/-! ### Lemmas about the stable descending sort -/

theorem mem_insDesc {x a : Int × String} {l : List (Int × String)} :
    a ∈ insDesc x l ↔ a = x ∨ a ∈ l := by
  induction l with
  | nil => simp [insDesc]
  | cons y ys ih =>
    simp only [insDesc]
    split
    · simp [List.mem_cons]
    · simp only [List.mem_cons, ih]
      tauto

theorem mem_sortDesc {a : Int × String} {l : List (Int × String)} :
    a ∈ sortDesc l ↔ a ∈ l := by
  induction l with
  | nil => simp [sortDesc]
  | cons y ys ih => simp [sortDesc, mem_insDesc, ih]

theorem length_insDesc (x : Int × String) (l : List (Int × String)) :
    (insDesc x l).length = l.length + 1 := by
  induction l with
  | nil => simp [insDesc]
  | cons y ys ih =>
    simp only [insDesc]
    split
    · simp
    · simp [ih]

theorem length_sortDesc (l : List (Int × String)) :
    (sortDesc l).length = l.length := by
  induction l with
  | nil => simp [sortDesc]
  | cons y ys ih => simp [sortDesc, length_insDesc, ih]

theorem pairwise_insDesc {x : Int × String} {l : List (Int × String)}
    (h : l.Pairwise (fun a b => b.1 ≤ a.1)) :
    (insDesc x l).Pairwise (fun a b => b.1 ≤ a.1) := by
  induction l with
  | nil => simp [insDesc]
  | cons y ys ih =>
    rw [List.pairwise_cons] at h
    obtain ⟨hy, hys⟩ := h
    simp only [insDesc]
    split
    · next hle =>
      refine List.pairwise_cons.mpr ⟨?_, List.pairwise_cons.mpr ⟨hy, hys⟩⟩
      intro z hz
      rcases List.mem_cons.mp hz with rfl | hz
      · exact hle
      · exact le_trans (hy z hz) hle
    · next hgt =>
      have hxy : x.1 < y.1 := lt_of_not_le hgt
      refine List.pairwise_cons.mpr ⟨?_, ih hys⟩
      intro z hz
      rcases mem_insDesc.mp hz with rfl | hz
      · exact le_of_lt hxy
      · exact hy z hz

theorem pairwise_sortDesc (l : List (Int × String)) :
    (sortDesc l).Pairwise (fun a b => b.1 ≤ a.1) := by
  induction l with
  | nil => simp [sortDesc]
  | cons a l ih => exact pairwise_insDesc ih

theorem filter_insDesc (s : Int) (x : Int × String) (l : List (Int × String)) :
    (insDesc x l).filter (fun t => t.1 == s) =
      if x.1 = s then x :: l.filter (fun t => t.1 == s)
      else l.filter (fun t => t.1 == s) := by
  induction l with
  | nil =>
    rcases eq_or_ne x.1 s with hx | hx
    · simp [insDesc, List.filter_cons, hx]
    · simp [insDesc, List.filter_cons, hx]
  | cons y ys ih =>
    simp only [insDesc]
    split
    · next hle =>
      rcases eq_or_ne x.1 s with hx | hx
      · simp [List.filter_cons, hx]
      · simp [List.filter_cons, hx]
    · next hgt =>
      have hxy : x.1 < y.1 := lt_of_not_le hgt
      rcases eq_or_ne x.1 s with hx | hx
      · have hy : y.1 ≠ s := by omega
        simp [List.filter_cons, ih, hx, hy]
      · simp [List.filter_cons, ih, hx]

/-- Stability of the engine's sort: restricted to any one score value,
the sorted list is exactly the unsorted list. -/
theorem filter_sortDesc (s : Int) (l : List (Int × String)) :
    (sortDesc l).filter (fun t => t.1 == s) = l.filter (fun t => t.1 == s) := by
  induction l with
  | nil => simp [sortDesc]
  | cons a l ih =>
    simp only [sortDesc]
    rw [filter_insDesc, List.filter_cons]
    rcases eq_or_ne a.1 s with hx | hx
    · simp [hx, ih]
    · simp [hx, ih]

/-! ### Substring containment -/

theorem hasPre_iff {p s : List Char} : hasPre p s = true ↔ ∃ t, s = p ++ t := by
  induction p generalizing s with
  | nil => simp [hasPre]
  | cons a ps ih =>
    cases s with
    | nil => simp [hasPre]
    | cons c cs =>
      simp only [hasPre, Bool.and_eq_true, beq_iff_eq, ih, List.cons_append]
      constructor
      · rintro ⟨rfl, t, rfl⟩
        exact ⟨t, rfl⟩
      · rintro ⟨t, h⟩
        injection h with h1 h2
        exact ⟨h1.symm, t, h2⟩

theorem hasSub_iff {need hay : List Char} :
    hasSub need hay = true ↔ ∃ a b, hay = a ++ need ++ b := by
  induction hay with
  | nil =>
    simp only [hasSub, List.isEmpty_iff]
    constructor
    · rintro rfl
      exact ⟨[], [], rfl⟩
    · rintro ⟨a, b, h⟩
      rcases List.append_eq_nil.mp (List.append_eq_nil.mp h.symm).1 with ⟨-, h2⟩
      exact h2
  | cons c cs ih =>
    simp only [hasSub, Bool.or_eq_true, hasPre_iff, ih]
    constructor
    · rintro (⟨t, h⟩ | ⟨a, b, rfl⟩)
      · exact ⟨[], t, by simpa using h⟩
      · exact ⟨c :: a, b, rfl⟩
    · rintro ⟨a, b, h⟩
      cases a with
      | nil =>
        left
        exact ⟨b, by simpa using h⟩
      | cons a0 as =>
        right
        rw [List.cons_append, List.cons_append] at h
        injection h with h1 h2
        exact ⟨as, b, by simp [h2]⟩

/-! ### Whole-word occurrences and identity of the rewrite passes -/

/-- Case-insensitive whole-word occurrence of `w` at some position of
the scanned characters, `prev` being the character just before them. -/
def hasWordAux (w : List Char) (prev : Option Char) : List Char → Bool
  | [] => false
  | c :: cs => (matchWB w prev (c :: cs)).isSome || hasWordAux w (some c) cs

/-- `s` contains `w` as a case-insensitive whole word.  The check runs
over the space-padded characters — the very padding `_to_second_person`
applies — which leaves whole-word occurrences unchanged. -/
def hasWordCI (w s : String) : Bool :=
  hasWordAux w.data none (' ' :: s.data ++ [' '])

/-- A `re.sub` pass whose whole-word pattern occurs nowhere leaves the
text unchanged (any fuel). -/
theorem subF_of_not_hasWord (pat rep : List Char) (f : Nat)
    (prev : Option Char) (s : List Char)
    (h : hasWordAux pat prev s = false) : subF pat rep f prev s = s := by
  induction f generalizing prev s with
  | zero => rfl
  | succ f ih =>
    cases s with
    | nil => rfl
    | cons c cs =>
      simp only [hasWordAux, Bool.or_eq_false_iff] at h
      obtain ⟨h1, h2⟩ := h
      cases hm : matchWB pat prev (c :: cs) with
      | some rest => rw [hm] at h1; simp at h1
      | none =>
        simp only [subF, hm]
        rw [ih (some c) cs h2]

/-- Inversion of a whole-word match for a pattern of length at least
two: the boundary held, the first characters agree case-insensitively. -/
theorem matchWB_cons_inv {u d : Char} {ds : List Char} {prev : Option Char}
    {c : Char} {cs rest : List Char}
    (hm : matchWB (u :: d :: ds) prev (c :: cs) = some rest) :
    bOK prev = true ∧ u.toLower = c.toLower ∧
      ∃ x cs2, cs = x :: cs2 ∧ d.toLower = x.toLower := by
  unfold matchWB at hm
  by_cases hb : bOK prev = true
  · rw [if_pos hb] at hm
    cases hcp : ciPre (u :: d :: ds) (c :: cs) with
    | none => rw [hcp] at hm; simp at hm
    | some r0 =>
      simp only [ciPre] at hcp
      by_cases hu : (u.toLower == c.toLower) = true
      · rw [if_pos hu] at hcp
        cases cs with
        | nil => simp [ciPre] at hcp
        | cons x cs2 =>
          simp only [ciPre] at hcp
          by_cases hd2 : (d.toLower == x.toLower) = true
          · exact ⟨hb, by simpa using hu, x, cs2, rfl, by simpa using hd2⟩
          · rw [if_neg hd2] at hcp; cases hcp
      · rw [if_neg hu] at hcp; cases hcp
  · rw [if_neg hb] at hm; cases hm

/-- A single whole-word pattern matches at a position where the
boundary holds, the letter agrees case-insensitively and the next
character is a boundary. -/
theorem matchWB_single {u : Char} {prev : Option Char} {c : Char}
    {cs : List Char} (hb : bOK prev = true) (hu : u.toLower = c.toLower)
    (he : bEnd cs = true) : matchWB [u] prev (c :: cs) = some cs := by
  simp [matchWB, ciPre, hb, hu, he]

/-- For an upper-case ASCII letter, `toLower` adds 32 to the code. -/
theorem toNat_toLower_upper {x : Char} (h1 : 65 ≤ x.toNat)
    (h2 : x.toNat ≤ 90) : (Char.toLower x).toNat = x.toNat + 32 := by
  simp only [Char.toLower]
  rw [if_pos ⟨h1, h2⟩]
  have hv : (x.toNat + 32).isValidChar := Or.inl (by omega)
  unfold Char.ofNat
  rw [dif_pos hv]
  unfold Char.ofNatAux
  simp [Char.toNat, UInt32.toNat]

/-- A character whose lower-casing is a non-word character outside the
lower-case range is itself a non-word character. -/
theorem wordChar_of_toLower_eq {x d : Char} (hd : wordChar d = false)
    (hdv : d.toNat < 97 ∨ 122 < d.toNat) (h : x.toLower = d) :
    wordChar x = false := by
  by_cases hu : 65 ≤ x.toNat ∧ x.toNat ≤ 90
  · exfalso
    have hn := congrArg Char.toNat h
    rw [toNat_toLower_upper hu.1 hu.2] at hn
    omega
  · have hx : x.toLower = x := by
      simp only [Char.toLower]
      rw [if_neg hu]
    rw [hx] at h
    rw [h]
    exact hd

/-- If the lead word of a longer pattern occurs nowhere as a whole word
and the pattern's second character only case-matches non-word
characters, the longer pattern matches nowhere either. -/
theorem hasWord_lead {u d : Char} {ds : List Char}
    (hd : ∀ x : Char, x.toLower = d.toLower → wordChar x = false)
    {prev : Option Char} {s : List Char}
    (h : hasWordAux [u] prev s = false) :
    hasWordAux (u :: d :: ds) prev s = false := by
  induction s generalizing prev with
  | nil => rfl
  | cons c cs ih =>
    simp only [hasWordAux, Bool.or_eq_false_iff] at h ⊢
    obtain ⟨h1, h2⟩ := h
    refine ⟨?_, ih h2⟩
    cases hm : matchWB (u :: d :: ds) prev (c :: cs) with
    | none => rfl
    | some rest =>
      obtain ⟨hb, hu, x, cs2, rfl, hd2⟩ := matchWB_cons_inv hm
      have hx : wordChar x = false := hd x hd2.symm
      have hone : matchWB [u] prev (c :: x :: cs2) = some (x :: cs2) :=
        matchWB_single hb hu (by simp [bEnd, hx])
      rw [hone] at h1
      simp at h1

/-- Stripping whitespace removes exactly the padding the rewrite added. -/
theorem stripWS_pad (l : List Char) :
    stripWS (' ' :: l ++ [' ']) = stripWS l := by
  have hsp : isPySpace ' ' = true := rfl
  unfold stripWS
  rw [show (' ' :: l ++ [' '] : List Char) = ' ' :: (l ++ [' ']) from rfl,
      List.dropWhile_cons, if_pos hsp, List.dropWhile_append]
  by_cases h : (List.dropWhile isPySpace l).isEmpty = true
  · rw [if_pos h, List.isEmpty_iff.mp h]
    simp [List.dropWhile_cons, hsp]
  · rw [if_neg h, List.reverse_append]
    simp [List.dropWhile_cons, hsp]

/-! ### Characterization of the ranked list -/

theorem mem_rankedFor {q : String} {ms : List Memory} {p : Int × String} :
    p ∈ rankedFor q ms ↔
      ∃ m ∈ ms, effText m ≠ "" ∧ 0 < overlapQM q m ∧
        p = (scoreM q m, effText m) := by
  rw [rankedFor, List.mem_filterMap]
  constructor
  · rintro ⟨m, hm, hf⟩
    by_cases h1 : effText m = ""
    · rw [if_pos h1] at hf
      cases hf
    · rw [if_neg h1] at hf
      by_cases h2 : 0 < scoreOverlap (qTokensF q) (effText m)
      · rw [if_pos h2] at hf
        injection hf with hf
        exact ⟨m, hm, h1, h2, hf.symm⟩
      · rw [if_neg h2] at hf
        cases hf
  · rintro ⟨m, hm, h1, h2, rfl⟩
    refine ⟨m, hm, ?_⟩
    rw [overlapQM] at h2
    rw [if_neg h1, if_pos h2]
    rfl

/-- A memory with positive overlap has tokens, hence non-empty text. -/
theorem effText_ne_of_overlap {q : String} {m : Memory}
    (h : 0 < overlapQM q m) : effText m ≠ "" := by
  intro heq
  rw [overlapQM, heq] at h
  simp [scoreOverlap, tokens, runsAux] at h

/-- Overlap depends on a memory only through its effective text. -/
theorem overlapQM_congr {q : String} {m m' : Memory}
    (h : effText m = effText m') : overlapQM q m = overlapQM q m' := by
  rw [overlapQM, overlapQM, h]

/-! ### Shared concrete inputs for the witnesses -/

def memArsenal : Memory :=
  ⟨some "Arsenal vs Man City at the Emirates, Sunday 4:30pm", none, some 5⟩

/-! ### The claims -/

/-- C1: for every question and memory with non-empty effective text,
the engine's ranked list contains the memory's entry `(overlap * 10 +
importance, text)` exactly when its token overlap with the question is
positive (importance defaulting to 3 when absent), and a zero-overlap
memory's text appears nowhere in the ranked list. -/
theorem C1_ranked_iff_overlap (q : String) (ms : List Memory) (m : Memory)
    (hm : m ∈ ms) (hne : effText m ≠ "") :
    (0 < overlapQM q m ↔ (scoreM q m, effText m) ∈ rankedList q ms) ∧
    (overlapQM q m = 0 → ∀ s : Int, (s, effText m) ∉ rankedList q ms) := by
  constructor
  · constructor
    · intro hpos
      exact mem_sortDesc.mpr (mem_rankedFor.mpr ⟨m, hm, hne, hpos, rfl⟩)
    · intro hmem
      obtain ⟨m', _, _, h2', heq⟩ := mem_rankedFor.mp (mem_sortDesc.mp hmem)
      have htxt : effText m = effText m' := congrArg Prod.snd heq
      rw [overlapQM_congr htxt]
      exact h2'
  · intro hzero s hmem
    obtain ⟨m', _, _, h2', heq⟩ := mem_rankedFor.mp (mem_sortDesc.mp hmem)
    have htxt : effText m = effText m' := congrArg Prod.snd heq
    rw [← overlapQM_congr htxt, hzero] at h2'
    exact absurd h2' (by omega)

/-- Witness for C1 at the spec's own example: the Arsenal memory scores
`1 * 10 + 5` against "Who are Arsenal playing?" and its entry is in the
ranked list. -/
theorem C1_ranked_iff_overlap_witness :
    effText memArsenal ≠ "" ∧
    (scoreM "Who are Arsenal playing?" memArsenal, effText memArsenal) ∈
      rankedList "Who are Arsenal playing?" [memArsenal] :=
  ⟨by decide,
    (C1_ranked_iff_overlap "Who are Arsenal playing?" [memArsenal]
      memArsenal (by simp) (by decide)).1.mp (by decide)⟩

/-- C2 counterexample: with an empty memory collection the engine
returns exactly `"I don't know."` — the very NoSignal sentinel — so the
no-memories response is not a distinct apology message, contrary to the
claim. -/
theorem C2_counterexample :
    answerQuestionFromMemories 0 "What time are Arsenal playing?" [] =
      "I don't know." := by
  rfl

/-- C2 amended: for every question (and any pinned template choice), an
empty memory collection yields the fixed message `"I don't know."`,
without any failure — the same string as the NoSignal sentinel, not a
distinct one. -/
theorem C2_empty_memories (pick : Nat) (q : String) :
    answerQuestionFromMemories pick q [] = "I don't know." := by
  rfl

/-- C5: when two candidates receive equal scores they appear in the
final ranked list in the stable order of the originally built list
(input order): restricting both lists to any one score value yields the
same sequence.  The engine is a pure function of its inputs, so the
ranking is deterministic and reproducible. -/
theorem C5_stable_ties (q : String) (ms : List Memory) (s : Int) :
    (rankedList q ms).filter (fun t => t.1 == s) =
      (rankedFor q ms).filter (fun t => t.1 == s) :=
  filter_sortDesc s (rankedFor q ms)

/-- C6: with a non-empty memory collection the engine returns exactly
the sentinel `"I don't know."` whenever the question has no significant
tokens or no memory has positive token overlap with the question. -/
theorem C6_nosignal (pick : Nat) (q : String) (ms : List Memory)
    (hne : ms ≠ [])
    (h : qTokensF q = ∅ ∨ ∀ m ∈ ms, overlapQM q m = 0) :
    answerQuestionFromMemories pick q ms = "I don't know." := by
  unfold answerQuestionFromMemories
  rcases h with h | h
  · rw [if_neg hne, if_pos h]
  · rw [if_neg hne]
    by_cases hq : qTokensF q = ∅
    · rw [if_pos hq]
    · rw [if_neg hq]
      have hr : rankedFor q ms = [] := by
        rw [rankedFor, List.filterMap_eq_nil_iff]
        intro m hm
        by_cases h1 : effText m = ""
        · rw [if_pos h1]
        · rw [if_neg h1, if_neg]
          have h0 := h m hm
          rw [overlapQM] at h0
          omega
      rw [if_pos hr]

/-- Witness for C6: a stopword-only question against a non-empty
collection yields the sentinel. -/
theorem C6_nosignal_witness :
    ([memArsenal] : List Memory) ≠ [] ∧
    answerQuestionFromMemories 0 "the a an" [memArsenal] = "I don't know." :=
  ⟨by simp, C6_nosignal 0 "the a an" [memArsenal] (by simp)
    (Or.inl (by decide))⟩

/-- C7: `_wants_multi` is true exactly when the lowercased question
contains one of the fourteen hint phrases as a contiguous substring;
"What do I have to do today?" triggers it, "Who are Arsenal playing?"
does not. -/
theorem C7_wants_multi_correct :
    (∀ q : String, wantsMulti q = true ↔
      ∃ h ∈ MULTI_Q_HINTS, ∃ a b : List Char,
        (lowerStr q).data = a ++ h.data ++ b) ∧
    wantsMulti "What do I have to do today?" = true ∧
    wantsMulti "Who are Arsenal playing?" = false := by
  refine ⟨?_, by decide, by decide⟩
  intro q
  rw [wantsMulti, List.any_eq_true]
  constructor
  · rintro ⟨h, hmem, hsub⟩
    exact ⟨h, hmem, hasSub_iff.mp hsub⟩
  · rintro ⟨h, hmem, hab⟩
    exact ⟨h, hmem, hasSub_iff.mpr hab⟩

/-- The template catalogue always has seven entries. -/
theorem templates_length (mt : String) : (templates mt).length = 7 := rfl

/-- C3 counterexample: with template 0 pinned, the first selected text
"tasks: dentist visit" carries no domain keyword (its suffix would be
empty), yet the engine appends the birthday suffix because "birthday"
occurs in the second selected text — the keyword match runs over the
whole joined body, not the first selected memory alone. -/
theorem C3_counterexample :
    domainSuffix (lowerStr "tasks: dentist visit") = "" ∧
    answerQuestionFromMemories 0 "what are all my tasks and things for the week"
      [⟨some "tasks: dentist visit", none, some 5⟩,
       ⟨some "plan the birthday things", none, some 3⟩] =
      "Here's what you've got: • tasks: dentist visit\n• plan the birthday things. Go get it done! 💪 🎂 Don't forget to wish them from me too!" := by
  constructor
  · rfl
  · rfl

/-- C3 amended: on the multi-item path (classifier true, ranked list
non-empty) the engine takes the top five ranked texts (fewer if fewer
exist), person-rewrites each independently, prefixes each with a bullet
marker, joins them with newlines into one body, wraps the body in
exactly one personality template, and appends the domain-aware suffix
determined by keyword match against the lowercase of the whole joined
body — so a domain keyword occurring only in a later-ranked selected
text does determine the suffix. -/
theorem C3_multi_path (pick : Nat) (q : String) (ms : List Memory)
    (h0 : ms ≠ []) (h1 : qTokensF q ≠ ∅) (h2 : rankedFor q ms ≠ [])
    (h3 : wantsMulti q = true) :
    answerQuestionFromMemories pick q ms =
      pickTemplate pick
        (String.intercalate "\n"
          (((rankedList q ms).take 5).map
            (fun t => "• " ++ toSecondPerson t.2))) ++
      domainSuffix (lowerStr
        (String.intercalate "\n"
          (((rankedList q ms).take 5).map
            (fun t => "• " ++ toSecondPerson t.2)))) := by
  have hsort : sortDesc (rankedFor q ms) ≠ [] := by
    intro hcon
    apply h2
    have hlen := length_sortDesc (rankedFor q ms)
    rw [hcon] at hlen
    exact List.length_eq_zero.mp hlen.symm
  have htop : ((sortDesc (rankedFor q ms)).take 5).map (fun t => t.2) ≠ [] := by
    cases hd : sortDesc (rankedFor q ms) with
    | nil => exact absurd hd hsort
    | cons a l => simp [hd]
  unfold answerQuestionFromMemories
  rw [if_neg h0, if_neg h1, if_neg h2, if_pos h3, if_neg htop]
  rw [personalityResponse, List.map_map]
  rfl

/-- Witness for C3's amended statement at the counterexample input. -/
theorem C3_multi_path_witness :
    wantsMulti "what are all my tasks and things for the week" = true ∧
    answerQuestionFromMemories 0 "what are all my tasks and things for the week"
      [⟨some "tasks: dentist visit", none, some 5⟩,
       ⟨some "plan the birthday things", none, some 3⟩] =
      pickTemplate 0
        (String.intercalate "\n"
          (((rankedList "what are all my tasks and things for the week"
            [⟨some "tasks: dentist visit", none, some 5⟩,
             ⟨some "plan the birthday things", none, some 3⟩]).take 5).map
            (fun t => "• " ++ toSecondPerson t.2))) ++
      domainSuffix (lowerStr
        (String.intercalate "\n"
          (((rankedList "what are all my tasks and things for the week"
            [⟨some "tasks: dentist visit", none, some 5⟩,
             ⟨some "plan the birthday things", none, some 3⟩]).take 5).map
            (fun t => "• " ++ toSecondPerson t.2)))) :=
  ⟨by decide,
    C3_multi_path 0 "what are all my tasks and things for the week"
      [⟨some "tasks: dentist visit", none, some 5⟩,
       ⟨some "plan the birthday things", none, some 3⟩]
      (by simp) (by decide) (by decide) (by decide)⟩

/-- C4: for any two ranked memories with importance in `[1, 5]`, a
strictly larger token overlap yields a strictly larger score, both
entries are in the ranked list, and every position holding the
higher-overlap memory's entry comes strictly before every position
holding the lower-overlap one's — overlap dominates importance. -/
theorem C4_overlap_dominates (q : String) (ms : List Memory)
    (m1 m2 : Memory) (hm1 : m1 ∈ ms) (hm2 : m2 ∈ ms)
    (hi1 : 1 ≤ impOf m1) (hi1b : impOf m1 ≤ 5)
    (hi2 : 1 ≤ impOf m2) (hi2b : impOf m2 ≤ 5)
    (hov : overlapQM q m2 < overlapQM q m1) (hpos : 0 < overlapQM q m2) :
    (scoreM q m1, effText m1) ∈ rankedList q ms ∧
    (scoreM q m2, effText m2) ∈ rankedList q ms ∧
    ∀ i j : Fin (rankedList q ms).length,
      (rankedList q ms).get i = (scoreM q m1, effText m1) →
      (rankedList q ms).get j = (scoreM q m2, effText m2) → i < j := by
  have hpos1 : 0 < overlapQM q m1 := lt_trans hpos hov
  have hcast : (overlapQM q m2 : Int) < (overlapQM q m1 : Int) := by
    exact_mod_cast hov
  have hscore : scoreM q m2 < scoreM q m1 := by
    rw [scoreM, scoreM]
    omega
  refine ⟨mem_sortDesc.mpr (mem_rankedFor.mpr
      ⟨m1, hm1, effText_ne_of_overlap hpos1, hpos1, rfl⟩),
    mem_sortDesc.mpr (mem_rankedFor.mpr
      ⟨m2, hm2, effText_ne_of_overlap hpos, hpos, rfl⟩), ?_⟩
  intro i j hgi hgj
  by_contra hij
  push_neg at hij
  rcases lt_or_eq_of_le hij with hlt | heq
  · have hp := List.pairwise_iff_get.mp
      (pairwise_sortDesc (rankedFor q ms)) j i hlt
    have hp2 : ((rankedList q ms).get i).1 ≤ ((rankedList q ms).get j).1 := hp
    rw [hgi, hgj] at hp2
    simp only at hp2
    omega
  · rw [← heq, hgj] at hgi
    have := congrArg Prod.fst hgi
    simp only at this
    omega

/-- Witness for C4: against "when are arsenal playing newcastle", an
overlap-2 importance-1 memory outranks an overlap-1 importance-5 one
even though it comes later in the input. -/
theorem C4_overlap_dominates_witness :
    overlapQM "when are arsenal playing newcastle"
        (⟨some "arsenal training camp", none, some 5⟩ : Memory) <
      overlapQM "when are arsenal playing newcastle"
        (⟨some "arsenal newcastle sunday", none, some 1⟩ : Memory) ∧
    (scoreM "when are arsenal playing newcastle"
        (⟨some "arsenal newcastle sunday", none, some 1⟩ : Memory),
      effText (⟨some "arsenal newcastle sunday", none, some 1⟩ : Memory)) ∈
      rankedList "when are arsenal playing newcastle"
        [⟨some "arsenal training camp", none, some 5⟩,
         ⟨some "arsenal newcastle sunday", none, some 1⟩] :=
  ⟨by decide,
    (C4_overlap_dominates "when are arsenal playing newcastle"
      [⟨some "arsenal training camp", none, some 5⟩,
       ⟨some "arsenal newcastle sunday", none, some 1⟩]
      ⟨some "arsenal newcastle sunday", none, some 1⟩
      ⟨some "arsenal training camp", none, some 5⟩
      (by simp) (by simp) (by decide) (by decide) (by decide) (by decide)
      (by decide) (by decide)).1⟩

/-- C8: `_to_second_person` on a string containing no first-person
pronoun or contraction as a case-insensitive whole word (no whole-word
"I", "my", "me", "our", "ours", "we" or "us") is the identity up to the
final tidying step, which strips surrounding whitespace and trailing
periods. -/
theorem C8_second_person_identity (s : String)
    (h : ∀ w ∈ ["I", "my", "me", "our", "ours", "we", "us"],
      hasWordCI w s = false) :
    toSecondPerson s = tidy s := by
  by_cases hs : s = ""
  · rw [hs]
    rfl
  · have hI : hasWordAux "I".data none (' ' :: s.data ++ [' ']) = false :=
      h "I" (by simp)
    have hmy : hasWordAux "my".data none (' ' :: s.data ++ [' ']) = false :=
      h "my" (by simp)
    have hme : hasWordAux "me".data none (' ' :: s.data ++ [' ']) = false :=
      h "me" (by simp)
    have hour : hasWordAux "our".data none (' ' :: s.data ++ [' ']) = false :=
      h "our" (by simp)
    have hours : hasWordAux "ours".data none (' ' :: s.data ++ [' ']) = false :=
      h "ours" (by simp)
    have hwe : hasWordAux "we".data none (' ' :: s.data ++ [' ']) = false :=
      h "we" (by simp)
    have hus : hasWordAux "us".data none (' ' :: s.data ++ [' ']) = false :=
      h "us" (by simp)
    have hdsp : ∀ x : Char, x.toLower = Char.toLower ' ' → wordChar x = false := by
      intro x hx
      have hx2 : x.toLower = ' ' := hx.trans (by decide)
      exact wordChar_of_toLower_eq (by decide) (by decide) hx2
    have hdap : ∀ x : Char, x.toLower = Char.toLower '\'' → wordChar x = false := by
      intro x hx
      have hx2 : x.toLower = '\'' := hx.trans (by decide)
      exact wordChar_of_toLower_eq (by decide) (by decide) hx2
    have hdcu : ∀ x : Char, x.toLower = Char.toLower '’' → wordChar x = false := by
      intro x hx
      have hx2 : x.toLower = '’' := hx.trans (by decide)
      exact wordChar_of_toLower_eq (by decide) (by decide) hx2
    have e1 : subTop "I am".data "You are".data (' ' :: s.data ++ [' ']) =
        ' ' :: s.data ++ [' '] :=
      subF_of_not_hasWord _ _ _ _ _ (hasWord_lead hdsp hI)
    have e2 : subTop "I'm".data "You're".data (' ' :: s.data ++ [' ']) =
        ' ' :: s.data ++ [' '] :=
      subF_of_not_hasWord _ _ _ _ _ (hasWord_lead hdap hI)
    have e3 : subTop "I’ve".data "You’ve".data (' ' :: s.data ++ [' ']) =
        ' ' :: s.data ++ [' '] :=
      subF_of_not_hasWord _ _ _ _ _ (hasWord_lead hdcu hI)
    have e4 : subTop "I’d".data "You’d".data (' ' :: s.data ++ [' ']) =
        ' ' :: s.data ++ [' '] :=
      subF_of_not_hasWord _ _ _ _ _ (hasWord_lead hdcu hI)
    have e5 : subTop "I’ll".data "You’ll".data (' ' :: s.data ++ [' ']) =
        ' ' :: s.data ++ [' '] :=
      subF_of_not_hasWord _ _ _ _ _ (hasWord_lead hdcu hI)
    have e6 : subTop "I".data "You".data (' ' :: s.data ++ [' ']) =
        ' ' :: s.data ++ [' '] :=
      subF_of_not_hasWord _ _ _ _ _ hI
    have e7 : subTop "my".data "your".data (' ' :: s.data ++ [' ']) =
        ' ' :: s.data ++ [' '] :=
      subF_of_not_hasWord _ _ _ _ _ hmy
    have e8 : subTop "me".data "you".data (' ' :: s.data ++ [' ']) =
        ' ' :: s.data ++ [' '] :=
      subF_of_not_hasWord _ _ _ _ _ hme
    have e9 : subTop "our".data "your".data (' ' :: s.data ++ [' ']) =
        ' ' :: s.data ++ [' '] :=
      subF_of_not_hasWord _ _ _ _ _ hour
    have e10 : subTop "ours".data "yours".data (' ' :: s.data ++ [' ']) =
        ' ' :: s.data ++ [' '] :=
      subF_of_not_hasWord _ _ _ _ _ hours
    have e11 : subTop "we".data "you".data (' ' :: s.data ++ [' ']) =
        ' ' :: s.data ++ [' '] :=
      subF_of_not_hasWord _ _ _ _ _ hwe
    have e12 : subTop "us".data "you".data (' ' :: s.data ++ [' ']) =
        ' ' :: s.data ++ [' '] :=
      subF_of_not_hasWord _ _ _ _ _ hus
    rw [toSecondPerson, if_neg hs]
    simp only [replPairs, List.foldl_cons, List.foldl_nil]
    rw [e1, e2, e3, e4, e5, e6, e7, e8, e9, e10, e11, e12, stripWS_pad]
    rfl

/-- Witness for C8: a pronoun-free reminder is returned verbatim, minus
its trailing period. -/
theorem C8_second_person_identity_witness :
    (∀ w ∈ ["I", "my", "me", "our", "ours", "we", "us"],
      hasWordCI w "Dentist appointment at 3pm." = false) ∧
    toSecondPerson "Dentist appointment at 3pm." =
      "Dentist appointment at 3pm" :=
  ⟨by decide,
    (C8_second_person_identity "Dentist appointment at 3pm."
      (by decide)).trans (by decide)⟩

/-- C9: the engine is total — a record whose effective text is empty is
silently skipped and never changes the returned string, wherever it
sits in the collection; every path returns a string (totality is
immediate from the embedding being a Lean function). -/
theorem C9_skip_textless (pick : Nat) (q : String) (l1 l2 : List Memory)
    (m : Memory) (hm : effText m = "") :
    answerQuestionFromMemories pick q (l1 ++ m :: l2) =
      answerQuestionFromMemories pick q (l1 ++ l2) := by
  have hrf : rankedFor q (l1 ++ m :: l2) = rankedFor q (l1 ++ l2) := by
    rw [rankedFor, rankedFor, List.filterMap_append, List.filterMap_append]
    congr 1
    simp [List.filterMap_cons, hm]
  by_cases hcase : l1 ++ l2 = []
  · have h1 : l1 = [] := (List.append_eq_nil.mp hcase).1
    have h2 : l2 = [] := (List.append_eq_nil.mp hcase).2
    subst h1
    subst h2
    have hr : rankedFor q ([m] : List Memory) = [] := by
      simp [rankedFor, hm]
    by_cases hq : qTokensF q = ∅
    · simp [answerQuestionFromMemories, hq]
    · simp [answerQuestionFromMemories, hq, hr]
  · have hne1 : l1 ++ m :: l2 ≠ [] := by simp
    unfold answerQuestionFromMemories
    rw [hrf, if_neg hne1, if_neg hcase]

/-- Witness for C9: a record with empty text sitting ahead of the
Arsenal memory leaves the answer unchanged. -/
theorem C9_skip_textless_witness :
    effText (⟨some "", none, some 3⟩ : Memory) = "" ∧
    answerQuestionFromMemories 0 "who are arsenal playing"
        [⟨some "", none, some 3⟩, memArsenal] =
      answerQuestionFromMemories 0 "who are arsenal playing" [memArsenal] :=
  ⟨by decide,
    C9_skip_textless 0 "who are arsenal playing" [] [memArsenal]
      ⟨some "", none, some 3⟩ (by decide)⟩

/-- C10: the pinned randomness enters the engine only through the
template index `pick % 7`, so two invocations with identical question,
memories and template choice yield identical strings — the random
template choice is the only source of non-determinism. -/
theorem C10_pinned_randomness (q : String) (ms : List Memory)
    (p1 p2 : Nat) (h : p1 % 7 = p2 % 7) :
    answerQuestionFromMemories p1 q ms =
      answerQuestionFromMemories p2 q ms := by
  unfold answerQuestionFromMemories personalityResponse pickTemplate
  simp only [templates_length, h]

/-- Witness for C10: picks 7 and 0 select the same template and give
the same answer. -/
theorem C10_pinned_randomness_witness :
    7 % 7 = 0 % 7 ∧
    answerQuestionFromMemories 7 "who are arsenal playing" [memArsenal] =
      answerQuestionFromMemories 0 "who are arsenal playing" [memArsenal] :=
  ⟨rfl, C10_pinned_randomness "who are arsenal playing" [memArsenal] 7 0 rfl⟩

end PickleMini
